import Mathlib

/-!
# Verification of `token-rs` (src/lib.rs): `Tokenizer` and `SentenceSplitter`

A shallow embedding of the two iterators in `src/lib.rs`:

* `Tokenizer::next` (lines 87-120) reads characters one at a time from a
  fallible character source (`io::Chars`, which yields `Ok c`, `Err e`, or
  end-of-stream), collapses separator characters and yields the maximal
  separator-free runs between them.
* `SentenceSplitter::next` (lines 178-237) pulls tokens from a `Tokenizer`
  and accumulates them (space-joined) into sentences, deciding after each
  token whether to yield: quote rules first, then ellipsis suppression,
  then terminator suffix match.

The character source is modelled as a `List (Except ε Char)` consumed from
the front: `Except.ok c` is a successfully read character, `Except.error e`
a read fault, and the end of the list is end-of-stream.  The tokenizer's
per-call state is exactly the unconsumed remainder of that list (its `current`
buffer is cleared at the start of every call, line 88), so `Tokenizer::next`
is a function from the remaining source to a result plus the new remainder.
Likewise the splitter clears its accumulator and resets its quote state at
the start of every call (lines 179-180), so its per-call state is again just
the remaining source.  The splitter's inner loop is written with an explicit
fuel parameter so that every definition is structurally recursive and
kernel-computable; one unit of fuel per remaining source element is always
sufficient because each produced token consumes at least one element.
-/

namespace TokenRs

/-- Outcome of one `Tokenizer::next` call (src/lib.rs lines 87-120):
end of the sequence (`None`), a read error (`Some(Err e)`), or the next
token (`Some(Ok s)`). -/
inductive TokResult (ε : Type) where
  | eos
  | err (e : ε)
  | tok (s : List Char)
deriving Repr

/-- Outcome of one `SentenceSplitter::next` call (src/lib.rs lines 178-237). -/
inductive SentResult (ε : Type) where
  | eos
  | err (e : ε)
  | sent (s : List Char)
deriving Repr

/-- `Tokenizer::next` (src/lib.rs lines 87-120).  `chars` is the unconsumed
character source, `buf` the `self.current` buffer (cleared by the caller, so
the embedding of one call starts it at `[]`; it is a parameter only so that
the recursion can thread it).  Returns the call's result together with the
remaining source.

The Rust loop: on a separator character, yield the buffer if it is non-empty
and otherwise silently drop the character; on an ordinary character, push it
and continue; on a read error, return it; at end of stream, yield a non-empty
buffer as a final token, else signal end-of-sequence. -/
def tokenizerNext {ε : Type} (seps : List Char) :
    List (Except ε Char) → List Char → TokResult ε × List (Except ε Char)
  | [], buf => (if buf = [] then .eos else .tok buf, [])
  | .error e :: rest, _buf => (.err e, rest)
  | .ok c :: rest, buf =>
    if c ∈ seps then
      if buf = [] then tokenizerNext seps rest buf
      else (.tok buf, rest)
    else
      tokenizerNext seps rest (buf ++ [c])

/-- The full token sequence obtained by calling `Tokenizer::next` repeatedly
until it signals end-of-sequence or a read error (the token stream up to the
first fault).  `fuel` bounds the number of calls; any `fuel` greater than the
source length suffices, and `none` means the fuel ran out. -/
def tokensF {ε : Type} (seps : List Char) :
    Nat → List (Except ε Char) → Option (List (List Char))
  | 0, _ => none
  | fuel + 1, chars =>
    match tokenizerNext seps chars [] with
    | (.tok s, rest) => (tokensF seps fuel rest).map (fun ts => s :: ts)
    | (.eos, _) => some []
    | (.err _, _) => some []

/-- The loop of `SentenceSplitter::next` (src/lib.rs lines 181-236).
`current` is the sentence accumulator `self.current` and `quote` the local
`quote` variable (the Rust code uses the empty string for "no open quote",
and so does this embedding).  After appending a token `s` (line 186) the
branches are, in source order: inside an open quote, yield iff `s` ends with
the open delimiter (lines 189-193); otherwise look for the first quote type
that `s` starts with — yield if `s` also ends with it, else open the quote
(lines 198-207); otherwise a token ending in `".."` continues the thought
trail (lines 211-214); otherwise yield iff `s` ends with some terminator
(lines 215-219); every non-yielding path appends a single `' '` and loops.
End of stream yields a non-empty accumulator as a final sentence (lines
228-234); a tokenizer error is returned as-is (line 225).  `fuel` bounds the
number of loop iterations (`none` = ran out; never happens when
`chars.length < fuel`). -/
def splitterLoopF {ε : Type} (seps : List Char) (terminators quote_types : List (List Char)) :
    Nat → List (Except ε Char) → List Char → List Char →
    Option (SentResult ε × List (Except ε Char))
  | 0, _, _, _ => none
  | fuel + 1, chars, current, quote =>
    match tokenizerNext seps chars [] with
    | (.eos, rest) => some (if current = [] then .eos else .sent current, rest)
    | (.err e, rest) => some (.err e, rest)
    | (.tok s, rest) =>
      let current' := current ++ s
      if quote ≠ [] then
        if quote.isSuffixOf s then some (.sent current', rest)
        else splitterLoopF seps terminators quote_types fuel rest (current' ++ [' ']) quote
      else
        match quote_types.find? (fun qt => qt.isPrefixOf s) with
        | some qt =>
          if qt.isSuffixOf s then some (.sent current', rest)
          else splitterLoopF seps terminators quote_types fuel rest (current' ++ [' ']) qt
        | none =>
          if [ '.', '.' ].isSuffixOf s then
            splitterLoopF seps terminators quote_types fuel rest (current' ++ [' ']) quote
          else if terminators.any (fun t => t.isSuffixOf s) then
            some (.sent current', rest)
          else
            splitterLoopF seps terminators quote_types fuel rest (current' ++ [' ']) quote

/-- One `SentenceSplitter::next` call (src/lib.rs lines 178-237): the loop
started with a cleared accumulator and no open quote (lines 179-180), with
enough fuel for the whole remaining source. -/
def sentenceNext {ε : Type} (seps : List Char) (terminators quote_types : List (List Char))
    (chars : List (Except ε Char)) : Option (SentResult ε × List (Except ε Char)) :=
  splitterLoopF seps terminators quote_types (chars.length + 1) chars [] []

/-- Concatenation of a list of tokens with a single copy of `sep` between
consecutive tokens and nothing after the last. -/
def joinWith (sep : Char) : List (List Char) → List Char
  | [] => []
  | [t] => t
  | t :: ts => t ++ [sep] ++ joinWith sep ts

/-- Concatenation of a list of tokens with a single `' '` after every token,
the trailing one included — the shape of the splitter's accumulator right
after a non-yielding iteration. -/
def joinTrail : List (List Char) → List Char
  | [] => []
  | t :: ts => t ++ [ ' ' ] ++ joinTrail ts

/-- Plain concatenation of a list of tokens. -/
def joinAll : List (List Char) → List Char
  | [] => []
  | t :: ts => t ++ joinAll ts

/-- Which of the four `return Some(Ok(...))` sites of
`SentenceSplitter::next` yielded a sentence: the quote-closing token
(src/lib.rs lines 190-192), the self-contained quoted token (lines 200-202),
a terminator-suffix token (lines 215-218), or the end-of-stream flush of a
non-empty accumulator (lines 229-230).  The first three are the termination
rules; `endOfStream` is the no-matching-terminator final flush. -/
inductive YieldRule where
  | quoteClose
  | selfQuote
  | terminator
  | endOfStream
deriving Repr, DecidableEq

/-- Outcome of one `SentenceSplitter::next` call, with each yielded sentence
tagged by the `YieldRule` that produced it. -/
inductive SentResultT (ε : Type) where
  | eos
  | err (e : ε)
  | sent (s : List Char) (rule : YieldRule)
deriving Repr

/-- Forgetting the yield-rule tag. -/
def SentResultT.erase {ε : Type} : SentResultT ε → SentResult ε
  | .eos => .eos
  | .err e => .err e
  | .sent s _ => .sent s

/-- The splitter loop `splitterLoopF` again, branch for branch, except that
every yielded sentence is tagged with the `YieldRule` of the `return` site
that produced it.  `splitterLoopT_erase` proves that forgetting the tags
gives back `splitterLoopF` exactly, so a tagged run is the run of the code
with its yield site made observable. -/
def splitterLoopT {ε : Type} (seps : List Char) (terminators quote_types : List (List Char)) :
    Nat → List (Except ε Char) → List Char → List Char →
    Option (SentResultT ε × List (Except ε Char))
  | 0, _, _, _ => none
  | fuel + 1, chars, current, quote =>
    match tokenizerNext seps chars [] with
    | (.eos, rest) =>
      some (if current = [] then .eos else .sent current .endOfStream, rest)
    | (.err e, rest) => some (.err e, rest)
    | (.tok s, rest) =>
      let current' := current ++ s
      if quote ≠ [] then
        if quote.isSuffixOf s then some (.sent current' .quoteClose, rest)
        else splitterLoopT seps terminators quote_types fuel rest (current' ++ [' ']) quote
      else
        match quote_types.find? (fun qt => qt.isPrefixOf s) with
        | some qt =>
          if qt.isSuffixOf s then some (.sent current' .selfQuote, rest)
          else splitterLoopT seps terminators quote_types fuel rest (current' ++ [' ']) qt
        | none =>
          if [ '.', '.' ].isSuffixOf s then
            splitterLoopT seps terminators quote_types fuel rest (current' ++ [' ']) quote
          else if terminators.any (fun t => t.isSuffixOf s) then
            some (.sent current' .terminator, rest)
          else
            splitterLoopT seps terminators quote_types fuel rest (current' ++ [' ']) quote

/-! ## Tokenizer lemmas -/

/-- When `Tokenizer::next` signals end-of-sequence it has consumed the whole
source: the remaining source is empty. -/
theorem tokenizerNext_eos_rest {ε : Type} (seps : List Char) :
    ∀ (chars : List (Except ε Char)) (buf rest : _),
      tokenizerNext (ε := ε) seps chars buf = (.eos, rest) → rest = [] := by
  intro chars
  induction chars with
  | nil =>
    intro buf rest h
    simp only [tokenizerNext, Prod.mk.injEq] at h
    exact h.2.symm
  | cons x rest' ih =>
    intro buf rest h
    cases x with
    | error e => simp [tokenizerNext] at h
    | ok c =>
      simp only [tokenizerNext] at h
      by_cases hc : c ∈ seps
      · rw [if_pos hc] at h
        by_cases hb : buf = []
        · rw [if_pos hb] at h
          exact ih _ _ h
        · rw [if_neg hb] at h
          simp at h
      · rw [if_neg hc] at h
        exact ih _ _ h

/-- Any token yielded by `Tokenizer::next` from a buffer holding no separator
characters is non-empty and holds no separator character (the buffer only ever
receives characters that failed the separator test, and is only yielded when
non-empty). -/
theorem tokenizerNext_tok_props {ε : Type} (seps : List Char) :
    ∀ (chars : List (Except ε Char)) (buf s : List Char) (rest : _),
      (∀ c ∈ buf, c ∉ seps) →
      tokenizerNext (ε := ε) seps chars buf = (.tok s, rest) →
      s ≠ [] ∧ ∀ c ∈ s, c ∉ seps := by
  intro chars
  induction chars with
  | nil =>
    intro buf s rest hbuf h
    simp only [tokenizerNext, Prod.mk.injEq] at h
    obtain ⟨h1, -⟩ := h
    by_cases hb : buf = []
    · rw [if_pos hb] at h1
      simp at h1
    · rw [if_neg hb] at h1
      obtain rfl : buf = s := by
        injection h1
      exact ⟨hb, hbuf⟩
  | cons x rest' ih =>
    intro buf s rest hbuf h
    cases x with
    | error e => simp [tokenizerNext] at h
    | ok c =>
      simp only [tokenizerNext] at h
      by_cases hc : c ∈ seps
      · rw [if_pos hc] at h
        by_cases hb : buf = []
        · rw [if_pos hb] at h
          exact ih _ _ _ hbuf h
        · rw [if_neg hb] at h
          simp only [Prod.mk.injEq, TokResult.tok.injEq] at h
          obtain ⟨rfl, -⟩ := h
          exact ⟨hb, hbuf⟩
      · rw [if_neg hc] at h
        refine ih _ _ _ ?_ h
        intro a ha
        rcases List.mem_append.mp ha with ha | ha
        · exact hbuf a ha
        · have : a = c := by simpa using ha
          subst this
          exact hc

/-- On a fault-free source, one `Tokenizer::next` call leaves a fault-free
suffix of the source, never errors, and preserves the non-separator content:
the buffer plus the source's non-separator characters equal the yielded token
plus the remainder's non-separator characters. -/
theorem tokenizerNext_ok_spec {ε : Type} (seps : List Char) :
    ∀ (src buf : List Char),
      ∃ (res : TokResult ε) (src2 : List Char),
        tokenizerNext (ε := ε) seps (src.map Except.ok) buf = (res, src2.map Except.ok)
        ∧ src2.length ≤ src.length
        ∧ ((res = .eos ∧ buf = [] ∧ src.filter (fun c => decide (c ∉ seps)) = [] ∧ src2 = [])
           ∨ (∃ s, res = .tok s
                ∧ buf ++ src.filter (fun c => decide (c ∉ seps))
                    = s ++ src2.filter (fun c => decide (c ∉ seps))
                ∧ (buf = [] → src2.length < src.length))) := by
  intro src
  induction src with
  | nil =>
    intro buf
    by_cases hb : buf = []
    · exact ⟨.eos, [], by simp [tokenizerNext, hb], Nat.le_refl _,
        Or.inl ⟨rfl, hb, by simp, rfl⟩⟩
    · exact ⟨.tok buf, [], by simp [tokenizerNext, hb], Nat.le_refl _,
        Or.inr ⟨buf, rfl, by simp, fun h => absurd h hb⟩⟩
  | cons c cs ih =>
    intro buf
    by_cases hc : c ∈ seps
    · by_cases hb : buf = []
      · obtain ⟨res, src2, heq, hlen, hcase⟩ := ih buf
        refine ⟨res, src2, ?_, Nat.le_succ_of_le hlen, ?_⟩
        · simpa [tokenizerNext, hc, hb] using heq
        · have hfilt : (c :: cs).filter (fun c => decide (c ∉ seps)) =
              cs.filter (fun c => decide (c ∉ seps)) := by
            simp [List.filter_cons, hc]
          rcases hcase with ⟨h1, h2, h3, h4⟩ | ⟨s, h1, h2, h3⟩
          · exact Or.inl ⟨h1, h2, by rw [hfilt]; exact h3, h4⟩
          · exact Or.inr ⟨s, h1, by rw [hfilt]; exact h2, fun _ => Nat.lt_succ_of_le hlen⟩
      · refine ⟨.tok buf, cs, by simp [tokenizerNext, hc, hb], Nat.le_succ _, ?_⟩
        refine Or.inr ⟨buf, rfl, ?_, fun h => absurd h hb⟩
        simp [List.filter_cons, hc]
    · obtain ⟨res, src2, heq, hlen, hcase⟩ := ih (buf ++ [c])
      refine ⟨res, src2, ?_, Nat.le_succ_of_le hlen, ?_⟩
      · simpa [tokenizerNext, hc] using heq
      · have hfilt : (c :: cs).filter (fun c => decide (c ∉ seps)) =
            c :: cs.filter (fun c => decide (c ∉ seps)) := by
          simp [List.filter_cons, hc]
        rcases hcase with ⟨-, h2, -, -⟩ | ⟨s, h1, h2, -⟩
        · exact absurd h2 (by simp)
        · refine Or.inr ⟨s, h1, ?_, fun _ => Nat.lt_succ_of_le hlen⟩
          rw [hfilt]
          calc buf ++ c :: cs.filter (fun c => decide (c ∉ seps))
              = (buf ++ [c]) ++ cs.filter (fun c => decide (c ∉ seps)) := by simp
            _ = s ++ src2.filter (fun c => decide (c ∉ seps)) := h2

/-- Iterating `Tokenizer::next` over a fault-free source succeeds with any
fuel larger than the source, the concatenated tokens are exactly the source's
non-separator characters in order, and each token is non-empty and
separator-free. -/
theorem tokensF_ok_spec {ε : Type} (seps : List Char) :
    ∀ (fuel : Nat) (src : List Char), src.length < fuel →
      ∃ ts, tokensF (ε := ε) seps fuel (src.map Except.ok) = some ts
        ∧ joinAll ts = src.filter (fun c => decide (c ∉ seps))
        ∧ ∀ t ∈ ts, t ≠ [] ∧ ∀ c ∈ t, c ∉ seps := by
  intro fuel
  induction fuel with
  | zero => intro src h; exact absurd h (Nat.not_lt_zero _)
  | succ fuel ih =>
    intro src hlen
    obtain ⟨res, src2, heq, hle, hcase⟩ := tokenizerNext_ok_spec (ε := ε) seps src []
    rcases hcase with ⟨hres, -, hfilt, hsrc2⟩ | ⟨s, hres, hfilt, hlt⟩
    · subst hres
      refine ⟨[], ?_, ?_, by simp⟩
      · simp only [tokensF, heq]
      · simp only [joinAll]
        exact hfilt.symm
    · subst hres
      have hs := tokenizerNext_tok_props (ε := ε) seps (src.map Except.ok) [] s
        (src2.map Except.ok) (by simp) heq
      have hlt' : src2.length < fuel := Nat.lt_of_lt_of_le (hlt rfl) (Nat.lt_succ_iff.mp hlen)
      obtain ⟨ts', hts', hjoin', hprops'⟩ := ih src2 hlt'
      refine ⟨s :: ts', ?_, ?_, ?_⟩
      · simp only [tokensF, heq, hts', Option.map_some']
      · have := hfilt
        simp only [List.nil_append] at this
        simp only [joinAll, hjoin']
        exact this.symm
      · intro t ht
        rcases List.mem_cons.mp ht with rfl | ht
        · exact hs
        · exact hprops' t ht

/-! ## Join lemmas -/

/-- A list of characters all of which pass the non-separator test is left
unchanged by the non-separator filter. -/
theorem filter_of_forall (seps : List Char) :
    ∀ t : List Char, (∀ c ∈ t, c ∉ seps) →
      t.filter (fun c => decide (c ∉ seps)) = t := by
  intro t
  induction t with
  | nil => intro _; simp
  | cons c cs ih =>
    intro h
    have hc : c ∉ seps := h c (by simp)
    simp only [List.filter_cons, decide_eq_true_eq]
    rw [if_pos hc, ih (fun a ha => h a (by simp [ha]))]

theorem joinWith_cons (sep : Char) (t : List Char) :
    ∀ ts : List (List Char), ts ≠ [] →
      joinWith sep (t :: ts) = t ++ [sep] ++ joinWith sep ts := by
  intro ts h
  cases ts with
  | nil => exact absurd rfl h
  | cons a l => rfl

theorem joinTrail_eq (ts : List (List Char)) (h : ts ≠ []) :
    joinTrail ts = joinWith ' ' ts ++ [ ' ' ] := by
  induction ts with
  | nil => exact absurd rfl h
  | cons t ts ih =>
    cases ts with
    | nil => simp [joinTrail, joinWith]
    | cons a l =>
      rw [joinTrail, joinWith_cons ' ' t (a :: l) (by simp), ih (by simp)]
      simp

/-- Filtering the separator characters out of the tokens joined by one
separator recovers the plain concatenation of the tokens, provided the tokens
themselves are separator-free. -/
theorem filter_joinWith (seps : List Char) (sep : Char) (hsep : sep ∈ seps) :
    ∀ ts : List (List Char), (∀ t ∈ ts, ∀ c ∈ t, c ∉ seps) →
      (joinWith sep ts).filter (fun c => decide (c ∉ seps)) = joinAll ts := by
  intro ts
  induction ts with
  | nil => intro _; simp [joinWith, joinAll]
  | cons t ts ih =>
    intro hall
    have hft : t.filter (fun c => decide (c ∉ seps)) = t :=
      filter_of_forall seps t (hall t (by simp))
    cases ts with
    | nil =>
      show t.filter (fun c => decide (c ∉ seps)) = t ++ joinAll []
      simp only [joinAll, List.append_nil]
      exact hft
    | cons a l =>
      have hsepf : ([sep] : List Char).filter (fun c => decide (c ∉ seps)) = [] := by
        simp [List.filter_cons, hsep]
      rw [joinWith_cons sep t (a :: l) (by simp), List.filter_append, List.filter_append,
        hft, hsepf, ih (fun u hu c hc => hall u (by simp [hu]) c hc)]
      simp [joinAll]

/-! ## Splitter loop lemmas -/

/-- Forgetting the yield-rule tags of a tagged splitter run gives exactly the
run of the embedded code: `splitterLoopT` is `splitterLoopF` with its yield
site made observable and nothing else changed. -/
theorem splitterLoopT_erase {ε : Type} (seps : List Char) (terms qts : List (List Char)) :
    ∀ (fuel : Nat) (chars : List (Except ε Char)) (current quote : List Char),
      (splitterLoopT seps terms qts fuel chars current quote).map
          (fun p => (p.1.erase, p.2))
        = splitterLoopF seps terms qts fuel chars current quote := by
  intro fuel
  induction fuel with
  | zero => intro chars current quote; simp [splitterLoopT, splitterLoopF]
  | succ fuel ih =>
    intro chars current quote
    rcases htok : tokenizerNext (ε := ε) seps chars [] with ⟨res, rest'⟩
    cases res with
    | eos =>
      simp only [splitterLoopT, splitterLoopF, htok]
      by_cases hcur : current = [] <;> simp [hcur, SentResultT.erase]
    | err e => simp [splitterLoopT, splitterLoopF, htok, SentResultT.erase]
    | tok s =>
      simp only [splitterLoopT, splitterLoopF, htok]
      by_cases hq : quote ≠ []
      · by_cases hsuf : quote.isSuffixOf s = true
        · simp [hq, hsuf, SentResultT.erase]
        · simp only [if_pos hq, if_neg hsuf]
          exact ih _ _ _
      · rcases hfind : qts.find? (fun qt => qt.isPrefixOf s) with - | qt
        · by_cases he : ([ '.', '.' ] : List Char).isSuffixOf s = true
          · simp only [if_neg hq, hfind, if_pos he]
            exact ih _ _ _
          · by_cases hterm : terms.any (fun t => t.isSuffixOf s) = true
            · simp [hq, hfind, he, hterm, SentResultT.erase]
            · simp only [if_neg hq, hfind, if_neg he, if_neg hterm]
              exact ih _ _ _
        · by_cases hsuf : qt.isSuffixOf s = true
          · simp [hq, hfind, hsuf, SentResultT.erase]
          · simp only [if_neg hq, hfind, if_neg hsuf]
            exact ih _ _ _

/-- Shape of every sentence the splitter loop can yield, attributed to its
yield site via the tagged run: a sentence yielded by one of the three
termination rules (tag other than `endOfStream`) is the accumulator followed
by the first `k+1` remaining tokens space-joined without a trailing space;
the sentence yielded by the end-of-stream flush (tag `endOfStream`) is the
accumulator followed by *all* remaining tokens, each with a trailing space —
in particular one at the very end — and is only produced when there is
something to flush. -/
theorem sent_shape_tagged {ε : Type} (seps : List Char) (terms qts : List (List Char)) :
    ∀ (fuel : Nat) (chars : List (Except ε Char)) (current quote : List Char)
      (ts : List (List Char)) (w : List Char) (rule : YieldRule)
      (rest : List (Except ε Char)),
      tokensF (ε := ε) seps fuel chars = some ts →
      splitterLoopT seps terms qts fuel chars current quote = some (.sent w rule, rest) →
      (rule ≠ .endOfStream →
        ∃ k, k < ts.length ∧ w = current ++ joinWith ' ' (ts.take (k + 1)))
      ∧ (rule = .endOfStream →
        w = current ++ joinTrail ts ∧ (ts = [] → current ≠ [])) := by
  intro fuel
  induction fuel with
  | zero =>
    intro chars current quote ts w rule rest ht hs
    simp [tokensF] at ht
  | succ fuel ih =>
    intro chars current quote ts w rule rest ht hs
    rcases htok : tokenizerNext (ε := ε) seps chars [] with ⟨res, rest'⟩
    cases res with
    | eos =>
      simp only [tokensF, htok] at ht
      obtain rfl : ([] : List (List Char)) = ts := by injection ht
      simp only [splitterLoopT, htok] at hs
      by_cases hcur : current = []
      · rw [if_pos hcur] at hs
        simp at hs
      · rw [if_neg hcur] at hs
        simp only [Option.some.injEq, Prod.mk.injEq, SentResultT.sent.injEq] at hs
        obtain ⟨⟨rfl, hrule⟩, -⟩ := hs
        obtain rfl : rule = .endOfStream := hrule.symm
        exact ⟨fun hne => absurd rfl hne, fun _ => ⟨by simp [joinTrail], fun _ => hcur⟩⟩
    | err e =>
      simp only [splitterLoopT, htok] at hs
      simp at hs
    | tok s =>
      simp only [tokensF, htok] at ht
      rw [Option.map_eq_some'] at ht
      obtain ⟨ts', hts', hcons⟩ := ht
      subst hcons
      simp only [splitterLoopT, htok] at hs
      have yield_case : ∀ r0 : YieldRule, r0 ≠ .endOfStream → current ++ s = w → r0 = rule →
          (rule ≠ .endOfStream →
            ∃ k, k < (s :: ts').length
              ∧ w = current ++ joinWith ' ' ((s :: ts').take (k + 1)))
          ∧ (rule = .endOfStream →
            w = current ++ joinTrail (s :: ts') ∧ (s :: ts' = [] → current ≠ [])) := by
        intro r0 hr0 hw hrr
        refine ⟨fun _ => ⟨0, by simp, by simp [joinWith, hw.symm]⟩, fun hEq => ?_⟩
        exact absurd (hrr.trans hEq) hr0
      have contin_case : ∀ q' : List Char,
          splitterLoopT seps terms qts fuel rest' (current ++ s ++ [ ' ' ]) q'
            = some (.sent w rule, rest) →
          (rule ≠ .endOfStream →
            ∃ k, k < (s :: ts').length
              ∧ w = current ++ joinWith ' ' ((s :: ts').take (k + 1)))
          ∧ (rule = .endOfStream →
            w = current ++ joinTrail (s :: ts') ∧ (s :: ts' = [] → current ≠ [])) := by
        intro q' hrec
        obtain ⟨h1, h2⟩ := ih rest' (current ++ s ++ [ ' ' ]) q' ts' w rule rest hts' hrec
        constructor
        · intro hne
          obtain ⟨k, hk, hw⟩ := h1 hne
          refine ⟨k + 1, by simpa using hk, ?_⟩
          have hne' : ts'.take (k + 1) ≠ [] := by
            cases ts' with
            | nil => exact absurd hk (by simp)
            | cons x l => simp
          rw [List.take_succ_cons, joinWith_cons ' ' s _ hne']
          simp only [hw]
          simp
        · intro hEq
          obtain ⟨hw, -⟩ := h2 hEq
          refine ⟨?_, by simp⟩
          rw [joinTrail]
          simp only [hw]
          simp
      split at hs
      · split at hs
        · simp only [Option.some.injEq, Prod.mk.injEq, SentResultT.sent.injEq] at hs
          obtain ⟨⟨hw, hr⟩, -⟩ := hs
          exact yield_case .quoteClose (by decide) hw hr
        · exact contin_case quote hs
      · split at hs
        · rename_i qt hfind
          split at hs
          · simp only [Option.some.injEq, Prod.mk.injEq, SentResultT.sent.injEq] at hs
            obtain ⟨⟨hw, hr⟩, -⟩ := hs
            exact yield_case .selfQuote (by decide) hw hr
          · exact contin_case qt hs
        · split at hs
          · exact contin_case quote hs
          · split at hs
            · simp only [Option.some.injEq, Prod.mk.injEq, SentResultT.sent.injEq] at hs
              obtain ⟨⟨hw, hr⟩, -⟩ := hs
              exact yield_case .terminator (by decide) hw hr
            · exact contin_case quote hs

/-- Every sentence the splitter loop yields from a non-empty-or-growing
accumulator is non-empty: the end-of-stream branch checks for emptiness, and
every other yield point returns the accumulator extended by a non-empty
token. -/
theorem sent_nonempty {ε : Type} (seps : List Char) (terms qts : List (List Char)) :
    ∀ (fuel : Nat) (chars : List (Except ε Char)) (current quote w : List Char)
      (rest : List (Except ε Char)),
      splitterLoopF seps terms qts fuel chars current quote = some (.sent w, rest) →
      w ≠ [] := by
  intro fuel
  induction fuel with
  | zero =>
    intro chars current quote w rest h
    simp [splitterLoopF] at h
  | succ fuel ih =>
    intro chars current quote w rest h
    rcases htok : tokenizerNext (ε := ε) seps chars [] with ⟨res, rest'⟩
    cases res with
    | eos =>
      simp only [splitterLoopF, htok] at h
      by_cases hcur : current = []
      · rw [if_pos hcur] at h
        simp at h
      · rw [if_neg hcur] at h
        simp only [Option.some.injEq, Prod.mk.injEq, SentResult.sent.injEq] at h
        exact h.1 ▸ hcur
    | err e =>
      simp only [splitterLoopF, htok] at h
      simp at h
    | tok s =>
      have hs := tokenizerNext_tok_props (ε := ε) seps chars [] s rest' (by simp) htok
      have hcs : current ++ s ≠ [] := by simp [hs.1]
      simp only [splitterLoopF, htok] at h
      split at h
      · split at h
        · simp only [Option.some.injEq, Prod.mk.injEq, SentResult.sent.injEq] at h
          exact h.1 ▸ hcs
        · exact ih _ _ _ _ _ h
      · split at h
        · split at h
          · simp only [Option.some.injEq, Prod.mk.injEq, SentResult.sent.injEq] at h
            exact h.1 ▸ hcs
          · exact ih _ _ _ _ _ h
        · split at h
          · exact ih _ _ _ _ _ h
          · split at h
            · simp only [Option.some.injEq, Prod.mk.injEq, SentResult.sent.injEq] at h
              exact h.1 ▸ hcs
            · exact ih _ _ _ _ _ h

/-! ## Claim theorems -/

/-- C2: every token yielded by `Tokenizer::next` is non-empty and contains no
character from the separator set — consecutive and leading separators are
collapsed, no empty token is ever produced, for every source (faulty or not)
and every separator set. -/
theorem tokenizer_token_props {ε : Type} (seps : List Char)
    (chars : List (Except ε Char)) (s : List Char) (rest : List (Except ε Char))
    (h : tokenizerNext (ε := ε) seps chars [] = (.tok s, rest)) :
    s ≠ [] ∧ ∀ c ∈ s, c ∉ seps :=
  tokenizerNext_tok_props seps chars [] s rest (by simp) h

theorem tokenizer_token_props_witness :
    tokenizerNext (ε := Unit) [ ' ' ] (("  ab c").toList.map Except.ok) []
      = (.tok [ 'a', 'b' ], [Except.ok 'c'])
    ∧ ([ 'a', 'b' ] ≠ [] ∧ ∀ c ∈ [ 'a', 'b' ], c ∉ [ ' ' ]) :=
  ⟨rfl, tokenizer_token_props (ε := Unit) [ ' ' ] (("  ab c").toList.map Except.ok)
    [ 'a', 'b' ] [Except.ok 'c'] rfl⟩

/-- C3: once `Tokenizer::next` signals end-of-sequence, its remaining source
is empty, and on the empty remainder every further call signals
end-of-sequence again (never a token or an error): the stream does not
reset. -/
theorem tokenizer_eos_persistent {ε : Type} (seps : List Char)
    (chars rest : List (Except ε Char))
    (h : tokenizerNext (ε := ε) seps chars [] = (.eos, rest)) :
    rest = [] ∧ tokenizerNext (ε := ε) seps rest [] = (.eos, []) := by
  have hr : rest = [] := tokenizerNext_eos_rest seps chars [] rest h
  subst hr
  exact ⟨rfl, rfl⟩

theorem tokenizer_eos_persistent_witness :
    tokenizerNext (ε := Unit) [ ' ' ] (("  ").toList.map Except.ok) [] = (.eos, [])
    ∧ (([] : List (Except Unit Char)) = []
       ∧ tokenizerNext (ε := Unit) [ ' ' ] [] [] = (.eos, [])) :=
  ⟨rfl, tokenizer_eos_persistent (ε := Unit) [ ' ' ] (("  ").toList.map Except.ok) [] rfl⟩

/-- C7: when the underlying `Tokenizer::next` call returns a read error, the
splitter loop returns that same error value on that call, unwrapped and
unmodified, whatever sentence accumulation (`current`, `quote`) was in
progress — no partial sentence is returned. -/
theorem splitter_error_propagation {ε : Type} (seps : List Char)
    (terms qts : List (List Char)) (fuel : Nat) (chars : List (Except ε Char))
    (current quote : List Char) (e : ε) (rest : List (Except ε Char))
    (h : tokenizerNext (ε := ε) seps chars [] = (.err e, rest)) :
    splitterLoopF seps terms qts (fuel + 1) chars current quote = some (.err e, rest) := by
  simp [splitterLoopF, h]

theorem splitter_error_propagation_witness :
    tokenizerNext (ε := Unit) [ ' ' ] [Except.error ()] [] = (.err (), [])
    ∧ splitterLoopF (ε := Unit) [ ' ' ] [[ '.' ]] [] 1 [Except.error ()] [ 'x' ] []
        = some (.err (), []) :=
  ⟨rfl, splitter_error_propagation [ ' ' ] [[ '.' ]] [] 0 _ [ 'x' ] [] () [] rfl⟩

/-- C9: on a fault-free source, concatenating all yielded tokens with exactly
one separator character between consecutive tokens gives a string whose
non-separator characters are exactly the source's non-separator characters,
in order: nothing is lost or duplicated. -/
theorem tokens_preserve_content {ε : Type} (seps : List Char) (sep : Char)
    (src : List Char) (fuel : Nat) (ts : List (List Char))
    (hsep : sep ∈ seps) (hfuel : src.length < fuel)
    (ht : tokensF (ε := ε) seps fuel (src.map Except.ok) = some ts) :
    (joinWith sep ts).filter (fun c => decide (c ∉ seps))
      = src.filter (fun c => decide (c ∉ seps)) := by
  obtain ⟨ts', hts', hjoin', hprops'⟩ := tokensF_ok_spec (ε := ε) seps fuel src hfuel
  obtain rfl : ts = ts' := by
    have h2 : some ts = some ts' := ht.symm.trans hts'
    injection h2
  rw [filter_joinWith seps sep hsep ts (fun t htm c hc => (hprops' t htm).2 c hc), hjoin']

theorem tokens_preserve_content_witness :
    (' ' ∈ [ ' ', '\n' ])
    ∧ (("a  b ").toList.length < 10)
    ∧ tokensF (ε := Unit) [ ' ', '\n' ] 10 (("a  b ").toList.map Except.ok)
        = some [[ 'a' ], [ 'b' ]]
    ∧ (joinWith ' ' [[ 'a' ], [ 'b' ]]).filter (fun c => decide (c ∉ [ ' ', '\n' ]))
        = ("a  b ").toList.filter (fun c => decide (c ∉ [ ' ', '\n' ])) :=
  ⟨by decide, by decide, rfl,
    tokens_preserve_content (ε := Unit) [ ' ', '\n' ] ' ' (("a  b ").toList) 10
      [[ 'a' ], [ 'b' ]] (by decide) (by decide) rfl⟩

/-- C5: while the open-quote state holds a delimiter `q`, the splitter yields
the accumulated sentence exactly on the tokens whose suffix is `q`; a token
inside the open quote not ending in `q` just extends the accumulator (plus a
single space) and loops, with neither the ellipsis rule nor the terminator
rule consulted — the continuation is the same whatever the terminator set. -/
theorem splitter_quote_close_iff {ε : Type} (seps : List Char)
    (terms qts : List (List Char)) (fuel : Nat) (chars rest : List (Except ε Char))
    (current q s : List Char)
    (hq : q ≠ [])
    (h : tokenizerNext (ε := ε) seps chars [] = (.tok s, rest)) :
    (q.isSuffixOf s = true →
      splitterLoopF seps terms qts (fuel + 1) chars current q
        = some (.sent (current ++ s), rest))
    ∧ (q.isSuffixOf s = false →
      splitterLoopF seps terms qts (fuel + 1) chars current q
        = splitterLoopF seps terms qts fuel rest (current ++ s ++ [ ' ' ]) q) := by
  constructor <;> intro hsuf <;> simp [splitterLoopF, h, hq, hsuf]

theorem splitter_quote_close_iff_witness :
    (([ '"' ] : List Char) ≠ [])
    ∧ tokenizerNext (ε := Unit) [ ' ' ] (("b\" x").toList.map Except.ok) []
        = (.tok [ 'b', '"' ], [Except.ok 'x'])
    ∧ ([ '"' ].isSuffixOf [ 'b', '"' ] = true)
    ∧ splitterLoopF (ε := Unit) [ ' ' ] [[ '.' ]] [] 1 (("b\" x").toList.map Except.ok)
        [ 'a', ' ' ] [ '"' ]
        = some (.sent [ 'a', ' ', 'b', '"' ], [Except.ok 'x']) :=
  ⟨by decide, rfl, by decide,
    (splitter_quote_close_iff (ε := Unit) [ ' ' ] [[ '.' ]] [] 0
      (("b\" x").toList.map Except.ok) [Except.ok 'x'] [ 'a', ' ' ] [ '"' ] [ 'b', '"' ]
      (by decide) rfl).1 (by decide)⟩

/-- C6, counterexample to the claim as stated: with quote delimiters
`["ab", "a"]` the token `"aba"` starts and ends with the delimiter `"a"`
of the set, yet the sentence is not yielded immediately on that token —
the code matched the *earlier* delimiter `"ab"`, opened a quote, and only
yielded at end of stream, producing `"aba "` (with trailing space), not
`"aba"`. -/
theorem splitter_quote_open_cex :
    tokenizerNext (ε := Unit) [ ' ' ] (("aba").toList.map Except.ok) []
      = (.tok ("aba").toList, [])
    ∧ ([ 'a' ] ∈ [[ 'a', 'b' ], [ 'a' ]])
    ∧ ([ 'a' ].isPrefixOf ("aba").toList = true)
    ∧ ([ 'a' ].isSuffixOf ("aba").toList = true)
    ∧ sentenceNext (ε := Unit) [ ' ' ] [] [[ 'a', 'b' ], [ 'a' ]] (("aba").toList.map Except.ok)
        = some (.sent ("aba ").toList, [])
    ∧ ("aba ").toList ≠ ("aba").toList :=
  ⟨rfl, by decide, by decide, by decide, rfl, by decide⟩

/-- C6 amended: when no quote is open and `q` is the *first* delimiter in
the quote-delimiter set's order that is a prefix of the just-appended token:
if the token also ends with `q` the sentence is yielded immediately, else
the open-quote state becomes `q` and accumulation continues — in either case
with neither the ellipsis rule nor the terminator rule evaluated for that
token (the outcome is the same for every terminator set). -/
theorem splitter_quote_open_amended {ε : Type} (seps : List Char)
    (terms qts : List (List Char)) (fuel : Nat) (chars rest : List (Except ε Char))
    (current q s : List Char)
    (h : tokenizerNext (ε := ε) seps chars [] = (.tok s, rest))
    (hfind : qts.find? (fun qt => qt.isPrefixOf s) = some q) :
    (q.isSuffixOf s = true →
      splitterLoopF seps terms qts (fuel + 1) chars current []
        = some (.sent (current ++ s), rest))
    ∧ (q.isSuffixOf s = false →
      splitterLoopF seps terms qts (fuel + 1) chars current []
        = splitterLoopF seps terms qts fuel rest (current ++ s ++ [ ' ' ]) q) := by
  constructor <;> intro hsuf <;> simp [splitterLoopF, h, hfind, hsuf]

theorem splitter_quote_open_amended_witness :
    tokenizerNext (ε := Unit) [ ' ' ] (("\"hi\" x").toList.map Except.ok) []
      = (.tok [ '"', 'h', 'i', '"' ], [Except.ok 'x'])
    ∧ ([[ '"' ]].find? (fun qt => qt.isPrefixOf [ '"', 'h', 'i', '"' ]) = some [ '"' ])
    ∧ splitterLoopF (ε := Unit) [ ' ' ] [[ '.' ]] [[ '"' ]] 1
        (("\"hi\" x").toList.map Except.ok) [] []
        = some (.sent [ '"', 'h', 'i', '"' ], [Except.ok 'x']) :=
  ⟨rfl, by decide,
    (splitter_quote_open_amended (ε := Unit) [ ' ' ] [[ '.' ]] [[ '"' ]] 0
      (("\"hi\" x").toList.map Except.ok) [Except.ok 'x'] [] [ '"' ] [ '"', 'h', 'i', '"' ]
      rfl (by decide)).1 (by decide)⟩

/-- C4, counterexample to the claim as stated: with `"."` both a terminator
and a quote delimiter, the token `"..."` ends with two consecutive `'.'`
characters and is appended while no quote is open, yet the sentence *does*
terminate on that token — the self-contained-quote rule (checked before the
ellipsis rule) fires because `"..."` starts and ends with the delimiter
`"."`. -/
theorem splitter_ellipsis_cex :
    tokenizerNext (ε := Unit) [ ' ' ] (("... a").toList.map Except.ok) []
      = (.tok [ '.', '.', '.' ], [Except.ok 'a'])
    ∧ ([ '.', '.' ].isSuffixOf [ '.', '.', '.' ] = true)
    ∧ ([ '.' ] ∈ [[ '.' ]])
    ∧ sentenceNext (ε := Unit) [ ' ' ] [[ '.' ]] [[ '.' ]] (("... a").toList.map Except.ok)
        = some (.sent [ '.', '.', '.' ], [Except.ok 'a']) :=
  ⟨rfl, by decide, by decide, rfl⟩

/-- C4 amended: for every token appended while no quote is open *and not
starting with any quote delimiter*, if the token ends with two consecutive
`'.'` characters the sentence does not terminate on that token — the loop
continues accumulating (token plus one space) whatever the terminator set,
`"."` included; and the source `"Wait... what?"` with terminators
`{".", "!", "?"}` and no quote delimiters yields the single sentence
`"Wait... what?"`. -/
theorem splitter_ellipsis_amended :
    (∀ (ε : Type) (seps : List Char) (terms qts : List (List Char)) (fuel : Nat)
       (chars rest : List (Except ε Char)) (current s : List Char),
       tokenizerNext (ε := ε) seps chars [] = (.tok s, rest) →
       (∀ qt ∈ qts, qt.isPrefixOf s = false) →
       [ '.', '.' ].isSuffixOf s = true →
       splitterLoopF seps terms qts (fuel + 1) chars current []
         = splitterLoopF seps terms qts fuel rest (current ++ s ++ [ ' ' ]) [])
    ∧ sentenceNext (ε := Unit) [ ' ' ] [[ '.' ], [ '!' ], [ '?' ]] []
        (("Wait... what?").toList.map Except.ok)
      = some (.sent ("Wait... what?").toList, []) := by
  refine ⟨?_, rfl⟩
  intro ε seps terms qts fuel chars rest current s h hq he
  have hfind : qts.find? (fun qt => qt.isPrefixOf s) = none :=
    List.find?_eq_none.mpr (fun qt hqt => by simp [hq qt hqt])
  simp [splitterLoopF, h, hfind, he]

theorem splitter_ellipsis_amended_witness :
    tokenizerNext (ε := Unit) [ ' ' ] (("a.. b").toList.map Except.ok) []
      = (.tok [ 'a', '.', '.' ], [Except.ok 'b'])
    ∧ ([ '.', '.' ].isSuffixOf [ 'a', '.', '.' ] = true)
    ∧ splitterLoopF (ε := Unit) [ ' ' ] [[ '.' ]] [] 2 (("a.. b").toList.map Except.ok) [] []
        = splitterLoopF (ε := Unit) [ ' ' ] [[ '.' ]] [] 1 [Except.ok 'b'] (("a.. ").toList) [] :=
  ⟨rfl, by decide,
    splitter_ellipsis_amended.1 Unit [ ' ' ] [[ '.' ]] [] 1
      (("a.. b").toList.map Except.ok) [Except.ok 'b'] [] [ 'a', '.', '.' ]
      rfl (by simp) (by decide)⟩

/-- C8: when the tokenizer signals end-of-sequence during a splitter call,
the splitter yields the accumulated text as a final sentence if the
accumulator is non-empty and signals end-of-sequence otherwise; every
yielded sentence is non-empty; and an empty source produces immediate
end-of-sequence from both the tokenizer and the splitter, with no error. -/
theorem splitter_eos_final {ε : Type} (seps : List Char) (terms qts : List (List Char)) :
    (∀ (fuel : Nat) (chars rest : List (Except ε Char)) (current quote : List Char),
       tokenizerNext (ε := ε) seps chars [] = (.eos, rest) →
       splitterLoopF seps terms qts (fuel + 1) chars current quote
         = some ((if current = [] then .eos else .sent current), rest))
    ∧ (∀ (fuel : Nat) (chars rest : List (Except ε Char)) (current quote w : List Char),
       splitterLoopF seps terms qts fuel chars current quote = some (.sent w, rest) →
       w ≠ [])
    ∧ tokenizerNext (ε := ε) seps [] [] = (.eos, [])
    ∧ sentenceNext (ε := ε) seps terms qts [] = some (.eos, []) := by
  refine ⟨?_, ?_, rfl, rfl⟩
  · intro fuel chars rest current quote h
    simp [splitterLoopF, h]
  · intro fuel chars rest current quote w h
    exact sent_nonempty seps terms qts fuel chars current quote w rest h

theorem splitter_eos_final_witness :
    tokenizerNext (ε := Unit) [ ' ' ] [Except.ok ' '] [] = (.eos, [])
    ∧ splitterLoopF (ε := Unit) [ ' ' ] [[ '.' ]] [] 3 [Except.ok ' '] [ 'a' ] []
        = some (.sent [ 'a' ], []) := by
  refine ⟨rfl, ?_⟩
  have h := (splitter_eos_final (ε := Unit) [ ' ' ] [[ '.' ]] []).1 2 [Except.ok ' '] []
    [ 'a' ] [] rfl
  simpa using h

/-- C1, counterexample to the claim as stated: the final sentence yielded at
end-of-stream without a matching terminator is *not* the tokens joined with
no trailing space — `"a b"` with terminator `"."` yields the single sentence
`"a b "` (trailing space included), while its constituent tokens `["a","b"]`
join to `"a b"`. -/
theorem sentence_join_cex :
    sentenceNext (ε := Unit) [ ' ' ] [[ '.' ]] [] (("a b").toList.map Except.ok)
      = some (.sent ("a b ").toList, [])
    ∧ tokensF (ε := Unit) [ ' ' ] 4 (("a b").toList.map Except.ok) = some [[ 'a' ], [ 'b' ]]
    ∧ ("a b ").toList ≠ joinWith ' ' [[ 'a' ], [ 'b' ]] :=
  ⟨rfl, rfl, by decide⟩

/-- C1 amended: every sentence yielded by `SentenceSplitter::next` through a
termination rule (quote close, self-contained quote, or terminator match)
equals a non-empty prefix of its constituent tokens joined with exactly one
space between consecutive tokens and no trailing space; a final sentence
yielded at end-of-stream without a matching terminator equals all its
constituent tokens so joined *followed by exactly one trailing space*.  The
attribution is carried by the tagged run: whenever the splitter yields a
sentence there is a yield rule such that the tagged loop (`splitterLoopT`,
provably the erasure-equal instrumentation of `splitterLoopF`) yields the
same sentence with that tag, the sentence is a no-trailing-space prefix join
exactly under the termination-rule tags, and it is the full join plus one
trailing space exactly under the `endOfStream` tag.  The concrete scenario
still holds: `"I walked down the road."` with whitespace separators,
terminators `{".", "!", "?"}` and no quote delimiters yields exactly the
single sentence `"I walked down the road."`. -/
theorem sentence_join_amended :
    (∀ (ε : Type) (seps : List Char) (terms qts : List (List Char)) (fuel : Nat)
       (chars rest : List (Except ε Char)) (ts : List (List Char)) (w : List Char),
       tokensF (ε := ε) seps fuel chars = some ts →
       splitterLoopF seps terms qts fuel chars [] [] = some (.sent w, rest) →
       ∃ rule : YieldRule,
         splitterLoopT seps terms qts fuel chars [] [] = some (.sent w rule, rest)
         ∧ (rule ≠ .endOfStream → ∃ k, 0 < k ∧ w = joinWith ' ' (ts.take k))
         ∧ (rule = .endOfStream → w = joinWith ' ' ts ++ [ ' ' ]))
    ∧ sentenceNext (ε := Unit) [ ' ', '\n', '\t', '\r' ] [[ '.' ], [ '!' ], [ '?' ]] []
        (("I walked down the road.").toList.map Except.ok)
      = some (.sent ("I walked down the road.").toList, []) := by
  refine ⟨?_, rfl⟩
  intro ε seps terms qts fuel chars rest ts w ht hs
  have herase := splitterLoopT_erase (ε := ε) seps terms qts fuel chars [] []
  rw [hs] at herase
  rcases hT : splitterLoopT (ε := ε) seps terms qts fuel chars [] [] with - | ⟨rT, restT⟩
  · rw [hT] at herase
    simp at herase
  · rw [hT] at herase
    simp only [Option.map_some', Option.some.injEq, Prod.mk.injEq] at herase
    obtain ⟨her, hrest⟩ := herase
    cases rT with
    | eos => simp [SentResultT.erase] at her
    | err e => simp [SentResultT.erase] at her
    | sent w' rule =>
      have hw' : w' = w := by simpa [SentResultT.erase] using her
      rw [hw', hrest] at hT
      obtain ⟨h1, h2⟩ :=
        sent_shape_tagged seps terms qts fuel chars [] [] ts w rule rest ht hT
      refine ⟨rule, by rw [hw', hrest], fun hne => ?_, fun hEq => ?_⟩
      · obtain ⟨k, -, hw⟩ := h1 hne
        exact ⟨k + 1, Nat.succ_pos k, by simpa using hw⟩
      · obtain ⟨hw, hne⟩ := h2 hEq
        have hts : ts ≠ [] := fun h0 => (hne h0) rfl
        simp only [List.nil_append] at hw
        rw [hw, joinTrail_eq ts hts]

theorem sentence_join_amended_witness :
    tokensF (ε := Unit) [ ' ' ] 3 (("x.").toList.map Except.ok) = some [[ 'x', '.' ]]
    ∧ splitterLoopF (ε := Unit) [ ' ' ] [[ '.' ]] [] 3 (("x.").toList.map Except.ok) [] []
        = some (.sent [ 'x', '.' ], [])
    ∧ ∃ rule : YieldRule,
        splitterLoopT (ε := Unit) [ ' ' ] [[ '.' ]] [] 3 (("x.").toList.map Except.ok) [] []
          = some (.sent [ 'x', '.' ] rule, [])
        ∧ (rule ≠ .endOfStream →
            ∃ k, 0 < k ∧ [ 'x', '.' ] = joinWith ' ' ([[ 'x', '.' ]].take k))
        ∧ (rule = .endOfStream → [ 'x', '.' ] = joinWith ' ' [[ 'x', '.' ]] ++ [ ' ' ]) :=
  ⟨rfl, rfl,
    sentence_join_amended.1 Unit [ ' ' ] [[ '.' ]] [] 3
      (("x.").toList.map Except.ok) [] [[ 'x', '.' ]] [ 'x', '.' ] rfl rfl⟩

/-- C10, counterexample to the claim as stated: the quote-delimiter set
`["\"", ""]` contains the empty string, yet on the fault-free source
`"\"a b\""` the splitter yields the sentence `"\"a b\""`, which consists of
the two tokens `"\"a"` and `"b\""`, not one — the earlier delimiter `"\""`
prefix-matches the first token before the empty string is consulted, opens a
quote, and the self-contained-quote rule never fires. -/
theorem splitter_empty_quote_cex :
    (([] : List Char) ∈ ([[ '"' ], []] : List (List Char)))
    ∧ tokensF (ε := Unit) [ ' ' ] 7 (("\"a b\"").toList.map Except.ok)
        = some [[ '"', 'a' ], [ 'b', '"' ]]
    ∧ sentenceNext (ε := Unit) [ ' ' ] [] [[ '"' ], []] (("\"a b\"").toList.map Except.ok)
        = some (.sent ("\"a b\"").toList, [])
    ∧ ("\"a b\"").toList ≠ [ '"', 'a' ]
    ∧ ("\"a b\"").toList ≠ [ 'b', '"' ] :=
  ⟨by decide, rfl, rfl, by decide, by decide⟩

/-- C10 amended: if the *first* element of the quote-delimiter set is the
empty string, then every splitter call that produces a sentence yields a
sentence consisting of exactly its first token: every token starts with and
ends with the empty string, so the self-contained-quote rule fires on the
first token, before any ellipsis or terminator rule is consulted. -/
theorem splitter_empty_quote_amended {ε : Type} (seps : List Char)
    (terms qts' : List (List Char)) (fuel : Nat) (chars rest : List (Except ε Char))
    (s : List Char)
    (h : tokenizerNext (ε := ε) seps chars [] = (.tok s, rest)) :
    splitterLoopF seps terms ([] :: qts') (fuel + 1) chars [] [] = some (.sent s, rest) := by
  have h1 : ([] : List Char).isPrefixOf s = true := by simp
  have h2 : ([] : List Char).isSuffixOf s = true := by simp [List.isSuffixOf]
  simp [splitterLoopF, h, List.find?, h1, h2]

theorem splitter_empty_quote_amended_witness :
    tokenizerNext (ε := Unit) [ ' ' ] (("ab cd").toList.map Except.ok) []
      = (.tok [ 'a', 'b' ], [Except.ok 'c', Except.ok 'd'])
    ∧ splitterLoopF (ε := Unit) [ ' ' ] [[ '.' ]] [[]] 6 (("ab cd").toList.map Except.ok) [] []
        = some (.sent [ 'a', 'b' ], [Except.ok 'c', Except.ok 'd']) :=
  ⟨rfl,
    splitter_empty_quote_amended (ε := Unit) [ ' ' ] [[ '.' ]] [] 5
      (("ab cd").toList.map Except.ok) [Except.ok 'c', Except.ok 'd'] [ 'a', 'b' ] rfl⟩

end TokenRs
